import Mathlib

/-!
Verification of the TellRequest browser-extension pull-request layer
(`src/pull.js`).

Strings are modelled as `List Char` (a JS string is a sequence of code
units; all inputs in scope are plain text).  JSON values are modelled by
the inductive `Pull.Json` with integer numbers (the payloads handled by
the extension carry integer `id` / `lineNo` fields only).

`JSON.stringify(x, null, 2)` and `JSON.parse` are host-platform
primitives, not part of the repository; they are modelled here by an
executable pretty-printer (`jsonStringify`) and an executable
recursive-descent parser (`jsonParse`) that accepts at least every
output of the printer.
-/

namespace Pull

/-- JSON values.  Numbers are modelled as integers: every payload the
extension reads or writes carries integer numbers only. -/
inductive Json where
  | null : Json
  | bool (b : Bool) : Json
  | num (n : Int) : Json
  | str (s : List Char) : Json
  | arr (items : List Json) : Json
  | obj (fields : List (List Char × Json)) : Json

/-- JavaScript truthiness of a JSON value: `null`, `false`, `0` and the
empty string are falsy, everything else (including `[]` and `\x7b\x7d`) is
truthy. -/
def jsTruthy : Json → Bool
  | .null => false
  | .bool b => b
  | .num n => decide (n ≠ 0)
  | .str s => decide (s ≠ [])
  | .arr _ => true
  | .obj _ => true

/-- Whitespace class used both by the regex `\s` and by the JSON
whitespace skipper (the ASCII whitespace characters). -/
def isWS (c : Char) : Bool :=
  c = ' ' || c = '\t' || c = '\n' || c = '\x0d' || c = '\x0b' || c = '\x0c'

/-- Hex digit character for a value below 16 (lower case, as produced
by `JSON.stringify` unicode escapes). -/
def hexDigitChar (n : Nat) : Char :=
  if n < 10 then Char.ofNat (48 + n) else Char.ofNat (87 + n)

/-- Value of a hex digit character, if it is one. -/
def hexVal (c : Char) : Option Nat :=
  if 48 ≤ c.toNat ∧ c.toNat ≤ 57 then some (c.toNat - 48)
  else if 97 ≤ c.toNat ∧ c.toNat ≤ 102 then some (c.toNat - 87)
  else if 65 ≤ c.toNat ∧ c.toNat ≤ 70 then some (c.toNat - 55)
  else none

/-- Decimal digits of a natural number, most significant first
(the canonical decimal rendering used by `JSON.stringify`). -/
def natDigits (n : Nat) : List Char :=
  if h : n < 10 then [Char.ofNat (48 + n)]
  else natDigits (n / 10) ++ [Char.ofNat (48 + n % 10)]
  decreasing_by exact Nat.div_lt_self (by omega) (by omega)

/-- Decimal rendering of an integer. -/
def intChars (n : Int) : List Char :=
  if n < 0 then '-' :: natDigits n.natAbs else natDigits n.toNat

/-- String-body escaping performed by `JSON.stringify`: quote and
backslash are backslash-escaped, the named control characters use their
short escapes, other control characters use a `\u00XX` escape, and
everything else is copied verbatim. -/
def escChar (c : Char) : List Char :=
  if c = '"' then ['\\', '"']
  else if c = '\\' then ['\\', '\\']
  else if c = '\x08' then ['\\', 'b']
  else if c = '\x09' then ['\\', 't']
  else if c = '\x0a' then ['\\', 'n']
  else if c = '\x0c' then ['\\', 'f']
  else if c = '\x0d' then ['\\', 'r']
  else if c.toNat < 32 then
    '\\' :: 'u' :: '0' :: '0' :: [hexDigitChar (c.toNat / 16), hexDigitChar (c.toNat % 16)]
  else [c]

/-- Escaped body of a JSON string literal. -/
def escString (s : List Char) : List Char := s.flatMap escChar

/-- Indentation: `n` spaces. -/
def spaces (n : Nat) : List Char := List.replicate n ' '

mutual

/-- Model of `JSON.stringify(v, null, 2)` at indentation level `ind`:
pretty-printed JSON with two-space indentation, exactly in the format
produced by the host `JSON.stringify` with an indent argument of `2`. -/
def printVal (ind : Nat) : Json → List Char
  | .null => 'n' :: 'u' :: 'l' :: ['l']
  | .bool b => if b then 't' :: 'r' :: 'u' :: ['e'] else 'f' :: 'a' :: 'l' :: 's' :: ['e']
  | .num n => intChars n
  | .str s => '"' :: (escString s ++ ['"'])
  | .arr [] => '[' :: [']']
  | .arr (x :: xs) =>
      '[' :: '\n' :: (spaces (ind + 2) ++ printVal (ind + 2) x ++ printItemsTail (ind + 2) xs
        ++ '\n' :: (spaces ind ++ [']']))
  | .obj [] => '\x7b' :: ['\x7d']
  | .obj (f :: fs) =>
      '\x7b' :: '\n' :: (spaces (ind + 2) ++ printField (ind + 2) f ++ printFieldsTail (ind + 2) fs
        ++ '\n' :: (spaces ind ++ ['\x7d']))

/-- One object member: `"key": value`. -/
def printField (ind : Nat) (f : List Char × Json) : List Char :=
  '"' :: (escString f.1 ++ '"' :: ':' :: ' ' :: printVal ind f.2)

/-- Remaining array items, each preceded by `,\n` and indentation. -/
def printItemsTail (ind : Nat) : List Json → List Char
  | [] => []
  | x :: xs => ',' :: '\n' :: (spaces ind ++ printVal ind x ++ printItemsTail ind xs)

/-- Remaining object members, each preceded by `,\n` and indentation. -/
def printFieldsTail (ind : Nat) : List (List Char × Json) → List Char
  | [] => []
  | f :: fs => ',' :: '\n' :: (spaces ind ++ printField ind f ++ printFieldsTail ind fs)

end

/-- Top-level model of `JSON.stringify(v, null, 2)`. -/
def jsonStringify (v : Json) : List Char := printVal 0 v

/-- Drop leading JSON whitespace. -/
def skipWS (s : List Char) : List Char := s.dropWhile isWS

mutual

/-- Fuel measure for the parser: one unit per value node and per list
node, so that parsing a printed value needs at most `sizeJ` fuel. -/
def sizeJ : Json → Nat
  | .null | .bool _ | .num _ | .str _ => 1
  | .arr l => 1 + sizeItems l
  | .obj fs => 1 + sizeFields fs

/-- Fuel measure for item lists. -/
def sizeItems : List Json → Nat
  | [] => 0
  | x :: xs => 1 + sizeJ x + sizeItems xs

/-- Fuel measure for field lists. -/
def sizeFields : List (List Char × Json) → Nat
  | [] => 0
  | f :: fs => 1 + sizeJ f.2 + sizeFields fs

end

/-- Parse the body of a JSON string literal (after the opening quote),
returning the decoded characters and the input after the closing
quote. -/
def parseStringBody : List Char → Option (List Char × List Char)
  | [] => none
  | c :: r =>
    if c = '"' then some ([], r)
    else if c = '\\' then
      match r with
      | [] => none
      | e :: r2 =>
        if e = 'u' then
          match r2 with
          | h1 :: h2 :: h3 :: h4 :: r3 =>
            match hexVal h1, hexVal h2, hexVal h3, hexVal h4 with
            | some v1, some v2, some v3, some v4 =>
              match parseStringBody r3 with
              | some (s, r4) =>
                  some (Char.ofNat (((v1 * 16 + v2) * 16 + v3) * 16 + v4) :: s, r4)
              | none => none
            | _, _, _, _ => none
          | _ => none
        else
          match
            (if e = '"' then some '"'
             else if e = '\\' then some '\\'
             else if e = '/' then some '/'
             else if e = 'b' then some '\x08'
             else if e = 't' then some '\x09'
             else if e = 'n' then some '\x0a'
             else if e = 'f' then some '\x0c'
             else if e = 'r' then some '\x0d'
             else none) with
          | some c' =>
            match parseStringBody r2 with
            | some (s, r3) => some (c' :: s, r3)
            | none => none
          | none => none
    else
      match parseStringBody r with
      | some (s, r2) => some (c :: s, r2)
      | none => none

/-- Decimal digit test (the character codes 48–57). -/
def isDigitC (c : Char) : Bool := decide (48 ≤ c.toNat) && decide (c.toNat ≤ 57)

/-- Numeric value of a list of decimal digit characters. -/
def digitsToNat (ds : List Char) : Nat :=
  ds.foldl (fun acc c => acc * 10 + (c.toNat - 48)) 0

/-- Parse a maximal nonempty run of decimal digits. -/
def parseNatPart (s : List Char) : Option (Nat × List Char) :=
  let ds := s.takeWhile isDigitC
  if ds = [] then none else some (digitsToNat ds, s.drop ds.length)

mutual

/-- Fuel-indexed model of `JSON.parse` on a value: skips leading
whitespace, then dispatches on the first character.  It accepts every
output of `printVal` (and is lenient about leading zeros, which the
printer never produces). -/
def parseValue : Nat → List Char → Option (Json × List Char)
  | 0, _ => none
  | fuel + 1, s =>
    match skipWS s with
    | [] => none
    | c :: r =>
      if c = 'n' then
        if ('u' :: 'l' :: ['l']).isPrefixOf r then some (.null, r.drop 3) else none
      else if c = 't' then
        if ('r' :: 'u' :: ['e']).isPrefixOf r then some (.bool true, r.drop 3) else none
      else if c = 'f' then
        if ('a' :: 'l' :: 's' :: ['e']).isPrefixOf r then some (.bool false, r.drop 4) else none
      else if c = '"' then
        match parseStringBody r with
        | some (s', r') => some (.str s', r')
        | none => none
      else if c = '-' then
        match parseNatPart r with
        | some (m, r') => some (.num (-(m : Int)), r')
        | none => none
      else if isDigitC c then
        match parseNatPart (c :: r) with
        | some (m, r') => some (.num (m : Int), r')
        | none => none
      else if c = '[' then
        match skipWS r with
        | [] => none
        | c1 :: r1 =>
          if c1 = ']' then some (.arr [], r1)
          else
            match parseItems fuel (c1 :: r1) with
            | some (items, r') => some (.arr items, r')
            | none => none
      else if c = '\x7b' then
        match skipWS r with
        | [] => none
        | c1 :: r1 =>
          if c1 = '\x7d' then some (.obj [], r1)
          else
            match parseFields fuel (c1 :: r1) with
            | some (fields, r') => some (.obj fields, r')
            | none => none
      else none

/-- Items of a nonempty array: value, then `,` and more items or the
closing `]`. -/
def parseItems : Nat → List Char → Option (List Json × List Char)
  | 0, _ => none
  | fuel + 1, s =>
    match parseValue fuel s with
    | some (v, r) =>
      (match skipWS r with
       | [] => none
       | c :: r2 =>
         if c = ',' then
           match parseItems fuel r2 with
           | some (vs, r3) => some (v :: vs, r3)
           | none => none
         else if c = ']' then some ([v], r2)
         else none)
    | none => none

/-- Members of a nonempty object: `"key"`, `:`, value, then `,` and
more members or the closing brace. -/
def parseFields : Nat → List Char → Option (List (List Char × Json) × List Char)
  | 0, _ => none
  | fuel + 1, s =>
    match skipWS s with
    | [] => none
    | c :: r =>
      if c = '"' then
        match parseStringBody r with
        | some (k, r1) =>
          (match skipWS r1 with
           | [] => none
           | c2 :: r2 =>
             if c2 = ':' then
               match parseValue fuel r2 with
               | some (v, r3) =>
                 (match skipWS r3 with
                  | [] => none
                  | c3 :: r4 =>
                    if c3 = ',' then
                      match parseFields fuel r4 with
                      | some (fs, r5) => some ((k, v) :: fs, r5)
                      | none => none
                    else if c3 = '\x7d' then some ([(k, v)], r4)
                    else none)
               | none => none
             else none)
        | none => none
      else none

end

/-- Model of `JSON.parse`: parse one value and require that only
whitespace remains. -/
def jsonParse (s : List Char) : Option Json :=
  match parseValue (s.length + 1) s with
  | some (v, rest) => if skipWS rest = [] then some v else none
  | none => none

/-! ## Round-trip of the JSON model: `jsonParse (jsonStringify v) = some v` -/

/-- A list is all-whitespace. -/
def wsOnly (w : List Char) : Prop := ∀ c ∈ w, isWS c = true

/-- A list does not start with a decimal digit (so a number printed in
front of it keeps its digits to itself). -/
def noDigitHead (t : List Char) : Prop := ∀ c r, t = c :: r → isDigitC c = false

theorem skipWS_cons_not {c : Char} (s : List Char) (h : isWS c = false) :
    skipWS (c :: s) = c :: s := by
  simp [skipWS, List.dropWhile_cons, h]

theorem skipWS_ws_append {w : List Char} (s : List Char) (h : wsOnly w) :
    skipWS (w ++ s) = skipWS s := by
  induction w with
  | nil => rfl
  | cons c w ih =>
    have hc : isWS c = true := h c (by simp)
    simp only [List.cons_append, skipWS, List.dropWhile_cons, hc, if_pos]
    exact ih (fun x hx => h x (by simp [hx]))

theorem spaces_wsOnly (n : Nat) : wsOnly (spaces n) := by
  intro c hc
  have : c = ' ' := List.eq_of_mem_replicate hc
  simp [this, isWS]

theorem isPrefixOf_app (l t : List Char) : l.isPrefixOf (l ++ t) = true := by
  induction l with
  | nil => simp [List.isPrefixOf]
  | cons c l ih => simp [List.isPrefixOf, ih]

theorem drop_len_app (l t : List Char) : (l ++ t).drop l.length = t := by
  simp

theorem hexVal_hexDigitChar (n : Nat) (h : n < 16) : hexVal (hexDigitChar n) = some n := by
  interval_cases n <;> decide

theorem digitChar_toNat (d : Nat) (h : d < 10) : (Char.ofNat (48 + d)).toNat = 48 + d := by
  interval_cases d <;> decide

theorem digitChar_isDigit (d : Nat) (h : d < 10) : isDigitC (Char.ofNat (48 + d)) = true := by
  interval_cases d <;> decide

theorem isDigitC_toNat {c : Char} (h : isDigitC c = true) : 48 ≤ c.toNat ∧ c.toNat ≤ 57 := by
  simpa [isDigitC] using h

theorem natDigits_ne_nil (n : Nat) : natDigits n ≠ [] := by
  rw [natDigits]
  split <;> simp

theorem natDigits_all_digit (n : Nat) : ∀ c ∈ natDigits n, isDigitC c = true := by
  induction n using Nat.strong_induction_on with
  | _ n ih =>
    rw [natDigits]
    split
    · intro c hc
      rw [List.mem_singleton] at hc
      subst hc
      exact digitChar_isDigit n (by omega)
    · intro c hc
      rcases List.mem_append.mp hc with h1 | h2
      · exact ih (n / 10) (Nat.div_lt_self (by omega) (by omega)) c h1
      · rw [List.mem_singleton] at h2
        subst h2
        exact digitChar_isDigit (n % 10) (Nat.mod_lt _ (by omega))

theorem digitsToNat_natDigits (n : Nat) : digitsToNat (natDigits n) = n := by
  induction n using Nat.strong_induction_on with
  | _ n ih =>
    rw [natDigits]
    split
    · simp only [digitsToNat, List.foldl_cons, List.foldl_nil]
      rw [digitChar_toNat n (by omega)]
      omega
    · simp only [digitsToNat, List.foldl_append, List.foldl_cons, List.foldl_nil]
      have hrec := ih (n / 10) (Nat.div_lt_self (by omega) (by omega))
      simp only [digitsToNat] at hrec
      rw [hrec, digitChar_toNat (n % 10) (Nat.mod_lt _ (by omega))]
      omega

theorem takeWhile_all_app {p : Char → Bool} (l t : List Char) (h1 : ∀ c ∈ l, p c = true)
    (h2 : ∀ c r, t = c :: r → p c = false) : (l ++ t).takeWhile p = l := by
  induction l with
  | nil =>
    cases t with
    | nil => rfl
    | cons c r => simp [List.takeWhile_cons, h2 c r rfl]
  | cons c l ih =>
    simp only [List.cons_append, List.takeWhile_cons, h1 c (by simp), if_pos]
    rw [ih (fun x hx => h1 x (by simp [hx]))]

theorem parseNatPart_natDigits (n : Nat) (rest : List Char) (h : noDigitHead rest) :
    parseNatPart (natDigits n ++ rest) = some (n, rest) := by
  have htw : (natDigits n ++ rest).takeWhile isDigitC = natDigits n :=
    takeWhile_all_app _ _ (natDigits_all_digit n) h
  simp only [parseNatPart, htw]
  rw [if_neg (natDigits_ne_nil n)]
  simp [digitsToNat_natDigits]

theorem psb_escape (s rest : List Char) :
    parseStringBody (escString s ++ '"' :: rest) = some (s, rest) := by
  induction s with
  | nil =>
    show parseStringBody ('"' :: rest) = some ([], rest)
    rw [parseStringBody.eq_def]
    simp
  | cons c s ih =>
    have hstep : escString (c :: s) = escChar c ++ escString s := by
      simp [escString]
    rw [hstep, List.append_assoc]
    by_cases h1 : c = '"'
    · subst h1
      rw [show escChar '"' = ['\\', '"'] from rfl]
      rw [parseStringBody.eq_def]
      simp [ih]
    · by_cases h2 : c = '\\'
      · subst h2
        rw [show escChar '\\' = ['\\', '\\'] from rfl]
        rw [parseStringBody.eq_def]
        simp [ih]
      · by_cases h3 : c = '\x08'
        · subst h3
          rw [show escChar '\x08' = ['\\', 'b'] from rfl]
          rw [parseStringBody.eq_def]
          simp [ih]
        · by_cases h4 : c = '\x09'
          · subst h4
            rw [show escChar '\x09' = ['\\', 't'] from rfl]
            rw [parseStringBody.eq_def]
            simp [ih]
          · by_cases h5 : c = '\x0a'
            · subst h5
              rw [show escChar '\x0a' = ['\\', 'n'] from rfl]
              rw [parseStringBody.eq_def]
              simp [ih]
            · by_cases h6 : c = '\x0c'
              · subst h6
                rw [show escChar '\x0c' = ['\\', 'f'] from rfl]
                rw [parseStringBody.eq_def]
                simp [ih]
              · by_cases h7 : c = '\x0d'
                · subst h7
                  rw [show escChar '\x0d' = ['\\', 'r'] from rfl]
                  rw [parseStringBody.eq_def]
                  simp [ih]
                · by_cases h8 : c.toNat < 32
                  · have hchar : escChar c = '\\' :: 'u' :: '0' :: '0' ::
                        [hexDigitChar (c.toNat / 16), hexDigitChar (c.toNat % 16)] := by
                      simp [escChar, h1, h2, h3, h4, h5, h6, h7, h8]
                    rw [hchar]
                    have hv1 : hexVal (hexDigitChar (c.toNat / 16)) = some (c.toNat / 16) :=
                      hexVal_hexDigitChar _ (by omega)
                    have hv2 : hexVal (hexDigitChar (c.toNat % 16)) = some (c.toNat % 16) :=
                      hexVal_hexDigitChar _ (by omega)
                    have h0 : hexVal '0' = some 0 := by decide
                    rw [parseStringBody.eq_def]
                    simp [h0, hv1, hv2, ih]
                    rw [show c.toNat / 16 * 16 + c.toNat % 16 = c.toNat from by omega]
                    rw [Char.ofNat_toNat]
                  · have hchar : escChar c = [c] := by
                      simp [escChar, h1, h2, h3, h4, h5, h6, h7, h8]
                    rw [hchar]
                    rw [List.cons_append, List.nil_append, parseStringBody.eq_def]
                    simp [h1, h2, ih]

theorem sizeJ_pos (v : Json) : 1 ≤ sizeJ v := by
  cases v <;> simp [sizeJ]

theorem wsOnly_nil : wsOnly [] := by
  intro c hc
  cases hc

theorem wsOnly_single_space : wsOnly [' '] := by
  intro c hc
  rw [List.mem_singleton] at hc
  simp [hc, isWS]

theorem wsOnly_nl_spaces (n : Nat) : wsOnly ('\n' :: spaces n) := by
  intro c hc
  rcases List.mem_cons.mp hc with h | h
  · simp [h, isWS]
  · exact spaces_wsOnly n c h

theorem ndh_cons {c : Char} (t : List Char) (h : isDigitC c = false) :
    noDigitHead (c :: t) := by
  intro c' r' heq
  cases heq
  exact h

theorem digitC_case {c : Char} (h : isDigitC c = true) (P : Char → Prop)
    (hall : ∀ d : Nat, d ≤ 9 → P (Char.ofNat (48 + d))) : P c := by
  obtain ⟨hl, hr⟩ := isDigitC_toNat h
  have hc : c = Char.ofNat c.toNat := (Char.ofNat_toNat c).symm
  rw [hc]
  have : c.toNat = 48 + (c.toNat - 48) := by omega
  rw [this]
  exact hall (c.toNat - 48) (by omega)

theorem digitC_facts {c : Char} (h : isDigitC c = true) :
    isWS c = false ∧ c ≠ ']' ∧ c ≠ '\x7d' ∧ c ≠ 'n' ∧ c ≠ 't' ∧ c ≠ 'f'
      ∧ c ≠ '"' ∧ c ≠ '-' ∧ c ≠ '[' ∧ c ≠ '\x7b' := by
  refine digitC_case h
    (fun x => isWS x = false ∧ x ≠ ']' ∧ x ≠ '\x7d' ∧ x ≠ 'n' ∧ x ≠ 't' ∧ x ≠ 'f'
      ∧ x ≠ '"' ∧ x ≠ '-' ∧ x ≠ '[' ∧ x ≠ '\x7b') (fun d hd => ?_)
  interval_cases d <;> decide

/-- Head shape of every printed JSON value: nonempty, starting with a
non-whitespace character that is not a closing bracket. -/
theorem printVal_headOK (ind : Nat) (v : Json) :
    ∃ c t, printVal ind v = c :: t ∧ isWS c = false ∧ c ≠ ']' ∧ c ≠ '\x7d' := by
  cases v with
  | null => exact ⟨'n', _, rfl, by decide, by decide, by decide⟩
  | bool b =>
    cases b
    · exact ⟨'f', _, rfl, by decide, by decide, by decide⟩
    · exact ⟨'t', _, rfl, by decide, by decide, by decide⟩
  | num n =>
    by_cases hn : n < 0
    · refine ⟨'-', natDigits n.natAbs, ?_, by decide, by decide, by decide⟩
      simp [printVal, intChars, hn]
    · obtain ⟨c, t, hct⟩ := List.exists_cons_of_ne_nil (natDigits_ne_nil n.toNat)
      have hdig : isDigitC c = true := natDigits_all_digit n.toNat c (by rw [hct]; simp)
      obtain ⟨h1, h2, h3, _⟩ := digitC_facts hdig
      refine ⟨c, t, ?_, h1, h2, h3⟩
      simp [printVal, intChars, hn, hct]
  | str s => exact ⟨'"', _, rfl, by decide, by decide, by decide⟩
  | arr items =>
    cases items with
    | nil => exact ⟨'[', _, rfl, by decide, by decide, by decide⟩
    | cons x xs => exact ⟨'[', _, rfl, by decide, by decide, by decide⟩
  | obj fs =>
    cases fs with
    | nil => exact ⟨'\x7b', _, rfl, by decide, by decide, by decide⟩
    | cons f fs => exact ⟨'\x7b', _, rfl, by decide, by decide, by decide⟩

theorem skipWS_nl_sp (n : Nat) (t : List Char) :
    skipWS ('\n' :: (spaces n ++ t)) = skipWS t := by
  have h := skipWS_ws_append (w := '\n' :: spaces n) t (wsOnly_nl_spaces n)
  simpa using h

set_option maxHeartbeats 1000000

theorem parsePrintAux (fuel : Nat) :
    (∀ v ind w rest, wsOnly w → sizeJ v ≤ fuel → noDigitHead rest →
      parseValue fuel (w ++ (printVal ind v ++ rest)) = some (v, rest)) ∧
    (∀ x xs ind ind2 w rest, wsOnly w → sizeItems (x :: xs) ≤ fuel →
      parseItems fuel (w ++ (printVal ind x ++ (printItemsTail ind xs
        ++ ('\n' :: (spaces ind2 ++ (']' :: rest)))))) = some (x :: xs, rest)) ∧
    (∀ kv fs ind ind2 w rest, wsOnly w → sizeFields (kv :: fs) ≤ fuel →
      parseFields fuel (w ++ (printField ind kv ++ (printFieldsTail ind fs
        ++ ('\n' :: (spaces ind2 ++ ('\x7d' :: rest)))))) = some (kv :: fs, rest)) := by
  induction fuel with
  | zero =>
    refine ⟨fun v ind w rest hw hsz hnd => ?_,
            fun x xs ind ind2 w rest hw hsz => ?_,
            fun kv fs ind ind2 w rest hw hsz => ?_⟩
    · have := sizeJ_pos v
      omega
    · have h1 : sizeItems (x :: xs) = 1 + sizeJ x + sizeItems xs := rfl
      omega
    · have h1 : sizeFields (kv :: fs) = 1 + sizeJ kv.2 + sizeFields fs := rfl
      omega
  | succ fuel ih =>
    obtain ⟨ihV, ihI, ihF⟩ := ih
    refine ⟨fun v ind w rest hw hsz hnd => ?_,
            fun x xs ind ind2 w rest hw hsz => ?_,
            fun kv fs ind ind2 w rest hw hsz => ?_⟩
    · -- parseValue
      cases v with
      | null =>
        simp only [printVal, List.cons_append, List.nil_append, parseValue]
        rw [skipWS_ws_append _ hw, skipWS_cons_not _ (by decide)]
        simp [List.isPrefixOf]
      | bool b =>
        cases b
        · rw [show printVal ind (Json.bool false) = 'f' :: 'a' :: 'l' :: 's' :: ['e'] from
            by simp [printVal]]
          simp only [List.cons_append, List.nil_append, parseValue]
          rw [skipWS_ws_append _ hw, skipWS_cons_not _ (by decide)]
          simp [List.isPrefixOf]
        · rw [show printVal ind (Json.bool true) = 't' :: 'r' :: 'u' :: ['e'] from
            by simp [printVal]]
          simp only [List.cons_append, List.nil_append, parseValue]
          rw [skipWS_ws_append _ hw, skipWS_cons_not _ (by decide)]
          simp [List.isPrefixOf]
      | num n =>
        by_cases hn : n < 0
        · rw [show printVal ind (Json.num n) = '-' :: natDigits n.natAbs from
            by simp [printVal, intChars, hn]]
          simp only [List.cons_append, parseValue]
          rw [skipWS_ws_append _ hw, skipWS_cons_not _ (by decide)]
          show (match parseNatPart (natDigits n.natAbs ++ rest) with
            | some (m, r') => some (Json.num (-(m : Int)), r')
            | none => none) = some (Json.num n, rest)
          rw [parseNatPart_natDigits n.natAbs rest hnd]
          simp only [Option.some.injEq, Prod.mk.injEq, Json.num.injEq]
          constructor
          · omega
          · trivial
        · obtain ⟨c, t, hct⟩ := List.exists_cons_of_ne_nil (natDigits_ne_nil n.toNat)
          have hdig := natDigits_all_digit n.toNat c (by rw [hct]; simp)
          obtain ⟨hws, _, _, hn1, ht1, hf1, hq1, hm1, hb1, hc1⟩ := digitC_facts hdig
          rw [show printVal ind (Json.num n) = natDigits n.toNat from
            by simp [printVal, intChars, hn], hct]
          simp only [List.cons_append, parseValue]
          rw [skipWS_ws_append _ hw, skipWS_cons_not _ hws]
          simp only [if_neg hn1, if_neg ht1, if_neg hf1, if_neg hq1, if_neg hm1, hdig, if_pos]
          rw [show c :: (t ++ rest) = natDigits n.toNat ++ rest from by rw [hct]; rfl]
          rw [parseNatPart_natDigits n.toNat rest hnd]
          simp only [Option.some.injEq, Prod.mk.injEq, Json.num.injEq]
          constructor
          · omega
          · trivial
      | str s =>
        simp only [printVal, List.cons_append, List.append_assoc, List.nil_append, parseValue]
        rw [skipWS_ws_append _ hw, skipWS_cons_not _ (by decide)]
        simp [psb_escape]
      | arr items =>
        cases items with
        | nil =>
          rw [show printVal ind (Json.arr []) = '[' :: [']'] from by simp [printVal]]
          simp only [List.cons_append, List.nil_append, parseValue]
          rw [skipWS_ws_append _ hw, skipWS_cons_not _ (by decide)]
          simp [skipWS_cons_not, show isDigitC '[' = false from by decide,
            show isWS ']' = false from by decide]
        | cons x xs =>
          obtain ⟨c, t, hct, hcws, hne1, hne2⟩ := printVal_headOK (ind + 2) x
          have hsz' : sizeItems (x :: xs) ≤ fuel := by
            have h1 : sizeJ (Json.arr (x :: xs)) = 1 + sizeItems (x :: xs) := rfl
            omega
          rw [show printVal ind (Json.arr (x :: xs)) = '[' :: '\n' :: (spaces (ind + 2)
                ++ printVal (ind + 2) x ++ printItemsTail (ind + 2) xs
                ++ '\n' :: (spaces ind ++ [']'])) from by simp [printVal]]
          have happ := ihI x xs (ind + 2) ind [] rest wsOnly_nil hsz'
          simp only [List.nil_append] at happ
          rw [hct] at happ ⊢
          simp only [List.cons_append, List.append_assoc, List.nil_append, parseValue]
            at happ ⊢
          rw [skipWS_ws_append _ hw, skipWS_cons_not _ (by decide)]
          simp [skipWS_nl_sp, skipWS_cons_not, hcws, hne1, happ,
            show isDigitC '[' = false from by decide]
      | obj fs =>
        cases fs with
        | nil =>
          rw [show printVal ind (Json.obj []) = '\x7b' :: ['\x7d'] from by simp [printVal]]
          simp only [List.cons_append, List.nil_append, parseValue]
          rw [skipWS_ws_append _ hw, skipWS_cons_not _ (by decide)]
          simp [skipWS_cons_not, show isDigitC '\x7b' = false from by decide,
            show isWS '\x7d' = false from by decide]
        | cons f fs =>
          have hsz' : sizeFields (f :: fs) ≤ fuel := by
            have h1 : sizeJ (Json.obj (f :: fs)) = 1 + sizeFields (f :: fs) := rfl
            omega
          rw [show printVal ind (Json.obj (f :: fs)) = '\x7b' :: '\n' :: (spaces (ind + 2)
                ++ printField (ind + 2) f ++ printFieldsTail (ind + 2) fs
                ++ '\n' :: (spaces ind ++ ['\x7d'])) from by simp [printVal]]
          have happ := ihF f fs (ind + 2) ind [] rest wsOnly_nil hsz'
          simp only [List.nil_append] at happ
          rw [show printField (ind + 2) f
              = '"' :: (escString f.1 ++ '"' :: ':' :: ' ' :: printVal (ind + 2) f.2) from
            by simp [printField]] at happ ⊢
          simp only [List.cons_append, List.append_assoc, parseValue] at happ ⊢
          rw [skipWS_ws_append _ hw, skipWS_cons_not _ (by decide)]
          simp [skipWS_nl_sp, skipWS_cons_not, happ,
            show isDigitC '\x7b' = false from by decide,
            show isWS '"' = false from by decide]
    · -- parseItems
      have hszx : sizeJ x ≤ fuel := by
        have h1 : sizeItems (x :: xs) = 1 + sizeJ x + sizeItems xs := rfl
        omega
      cases xs with
      | nil =>
        simp only [printItemsTail, List.nil_append, parseItems]
        rw [ihV x ind w ('\n' :: (spaces ind2 ++ (']' :: rest))) hw hszx
            (ndh_cons _ (by decide))]
        simp [skipWS_nl_sp, skipWS_cons_not, show isWS ']' = false from by decide]
      | cons y ys =>
        have hszy : sizeItems (y :: ys) ≤ fuel := by
          have h1 : sizeItems (x :: y :: ys) = 1 + sizeJ x + sizeItems (y :: ys) := rfl
          have := sizeJ_pos x
          omega
        rw [show printItemsTail ind (y :: ys) = ',' :: '\n' :: (spaces ind
              ++ printVal ind y ++ printItemsTail ind ys) from by simp [printItemsTail]]
        simp only [List.cons_append, List.append_assoc, parseItems]
        rw [ihV x ind w (',' :: '\n' :: (spaces ind ++ (printVal ind y ++ (printItemsTail ind ys
              ++ '\n' :: (spaces ind2 ++ ']' :: rest))))) hw hszx (ndh_cons _ (by decide))]
        have happ := ihI y ys ind ind2 ('\n' :: spaces ind) rest (wsOnly_nl_spaces ind) hszy
        simp only [List.cons_append, List.append_assoc] at happ
        simp [skipWS_cons_not, happ, show isWS ',' = false from by decide]
    · -- parseFields
      have hszv : sizeJ kv.2 ≤ fuel := by
        have h1 : sizeFields (kv :: fs) = 1 + sizeJ kv.2 + sizeFields fs := rfl
        omega
      rw [show printField ind kv
          = '"' :: (escString kv.1 ++ '"' :: ':' :: ' ' :: printVal ind kv.2) from
        by simp [printField]]
      simp only [List.cons_append, List.append_assoc, parseFields]
      rw [skipWS_ws_append _ hw, skipWS_cons_not _ (by decide)]
      simp only [reduceIte]
      rw [show escString kv.1 ++ '"' :: ':' :: ' ' :: (printVal ind kv.2
            ++ (printFieldsTail ind fs ++ '\n' :: (spaces ind2 ++ '\x7d' :: rest)))
          = escString kv.1 ++ '"' :: (':' :: ' ' :: (printVal ind kv.2
            ++ (printFieldsTail ind fs ++ '\n' :: (spaces ind2 ++ '\x7d' :: rest)))) from rfl]
      rw [psb_escape]
      cases fs with
      | nil =>
        simp only [printFieldsTail, List.nil_append]
        have hv := ihV kv.2 ind [' '] ('\n' :: (spaces ind2 ++ ('\x7d' :: rest)))
          wsOnly_single_space hszv (ndh_cons _ (by decide))
        simp only [List.cons_append, List.nil_append] at hv
        simp [skipWS_cons_not, skipWS_nl_sp, hv,
          show isWS ':' = false from by decide, show isWS '\x7d' = false from by decide]
      | cons f2 fs' =>
        have hszf : sizeFields (f2 :: fs') ≤ fuel := by
          have h1 : sizeFields (kv :: f2 :: fs') = 1 + sizeJ kv.2 + sizeFields (f2 :: fs') := rfl
          have := sizeJ_pos kv.2
          omega
        rw [show printFieldsTail ind (f2 :: fs') = ',' :: '\n' :: (spaces ind
              ++ printField ind f2 ++ printFieldsTail ind fs') from by simp [printFieldsTail]]
        simp only [List.cons_append, List.append_assoc]
        have hv := ihV kv.2 ind [' '] (',' :: '\n' :: (spaces ind ++ (printField ind f2
              ++ (printFieldsTail ind fs' ++ '\n' :: (spaces ind2 ++ '\x7d' :: rest)))))
          wsOnly_single_space hszv (ndh_cons _ (by decide))
        simp only [List.cons_append, List.nil_append] at hv
        have happ := ihF f2 fs' ind ind2 ('\n' :: spaces ind) rest (wsOnly_nl_spaces ind) hszf
        simp only [List.cons_append, List.append_assoc] at happ
        simp [skipWS_cons_not, hv, happ,
          show isWS ':' = false from by decide, show isWS ',' = false from by decide]

mutual

/-- A printed value is at least as long as its fuel measure. -/
theorem sizeJ_le_len (v : Json) (ind : Nat) : sizeJ v ≤ (printVal ind v).length := by
  cases v with
  | null => simp [printVal, sizeJ]
  | bool b => cases b <;> simp [printVal, sizeJ]
  | num n =>
    have hne : intChars n ≠ [] := by
      unfold intChars
      split
      · simp
      · exact natDigits_ne_nil _
    have := List.length_pos.mpr hne
    simp only [printVal, sizeJ]
    omega
  | str s =>
    simp [printVal, sizeJ]
  | arr items =>
    cases items with
    | nil => simp [printVal, sizeJ, sizeItems]
    | cons x xs =>
      have h1 := sizeJ_le_len x (ind + 2)
      have h2 := sizeItems_le_len xs (ind + 2)
      simp only [printVal, sizeJ, sizeItems, List.length_cons, List.length_append, spaces,
        List.length_replicate]
      omega
  | obj fs =>
    cases fs with
    | nil => simp [printVal, sizeJ, sizeFields]
    | cons f fs =>
      obtain ⟨k1, v1⟩ := f
      have h1 := sizeJ_le_len v1 (ind + 2)
      have h2 := sizeFields_le_len fs (ind + 2)
      simp only [printVal, printField, sizeJ, sizeFields, List.length_cons, List.length_append,
        spaces, List.length_replicate]
      omega
  termination_by (sizeOf v, 1)
  decreasing_by all_goals (simp_wf; omega)

/-- Tail items are at least as long as their fuel measure. -/
theorem sizeItems_le_len (xs : List Json) (ind : Nat) :
    sizeItems xs ≤ (printItemsTail ind xs).length := by
  cases xs with
  | nil => simp [sizeItems, printItemsTail]
  | cons x xs =>
    have h1 := sizeJ_le_len x ind
    have h2 := sizeItems_le_len xs ind
    simp only [sizeItems, printItemsTail, List.length_cons, List.length_append, spaces,
      List.length_replicate]
    omega
  termination_by (sizeOf xs, 0)
  decreasing_by all_goals (simp_wf; omega)

/-- Tail members are at least as long as their fuel measure. -/
theorem sizeFields_le_len (fs : List (List Char × Json)) (ind : Nat) :
    sizeFields fs ≤ (printFieldsTail ind fs).length := by
  cases fs with
  | nil => simp [sizeFields, printFieldsTail]
  | cons f fs =>
    obtain ⟨k1, v1⟩ := f
    have h1 := sizeJ_le_len v1 ind
    have h2 := sizeFields_le_len fs ind
    simp only [sizeFields, printFieldsTail, printField, List.length_cons, List.length_append,
      spaces, List.length_replicate]
    omega
  termination_by (sizeOf fs, 0)
  decreasing_by all_goals (simp_wf; omega)

end

/-- The empty list has no digit head. -/
theorem ndh_nil : noDigitHead [] := fun _ _ h => nomatch h

/-- Round trip of the JSON model: parsing a pretty-printed value
recovers it exactly. -/
theorem jsonParse_stringify (v : Json) : jsonParse (jsonStringify v) = some v := by
  have hb := sizeJ_le_len v 0
  have h := (parsePrintAux ((printVal 0 v).length + 1)).1 v 0 [] [] wsOnly_nil (by omega) ndh_nil
  simp only [List.nil_append, List.append_nil] at h
  simp [jsonParse, jsonStringify, h, skipWS]

/-! ## The codec (`parseComment` / `renderComment`)

`src/pull.js` lines 10–28.  The decoder is the anchored regex

`^(?<before>.*?)(?:<!--\s*)?(?:MAGIC)(?<data>.*)(?:MAGIC)(?:\s*-->)?(?<after>.*)$`

with the `s` flag (`.` matches every character).  It is embedded below
by its backtracking semantics: the lazy `before` group scans positions
left to right; at each position the optional `<!--\s*` prefix is tried
greedily before its empty alternative; the greedy `data` group selects
the last following occurrence of the marker; the optional `\s*-->`
suffix is consumed greedily; `after` takes the rest. -/

/-- Modelled from the spec: `MAGIC` is the fixed literal delimiter
token defined in `common.js` (a file not present in the source tree);
the spec describes it as "a fixed literal token unlikely to occur in
ordinary text".  An arbitrary letter-only token is used. -/
def MAGIC : List Char := 'T' :: 'e' :: 'l' :: 'l' :: 'R' :: 'e' :: 'q' :: 'u' :: 'e' :: 's' :: ['t']

/-- The literal `<!--` that may precede the marker. -/
def openTag : List Char := '<' :: '!' :: '-' :: ['-']

/-- The literal `-->` that may follow the closing marker. -/
def closeTag : List Char := '-' :: '-' :: ['>']

/-- Length of the maximal whitespace run at the head of `t`
(the text the greedy `\s*` can span). -/
def wsLen (t : List Char) : Nat := (t.takeWhile isWS).length

/-- Whether `MAGIC` occurs (as a contiguous sublist) anywhere in `t`:
the executable form of "contains the marker token". -/
def hasMagic (t : List Char) : Bool :=
  (List.range (t.length + 1)).any (fun i => MAGIC.isPrefixOf (t.drop i))

/-- Positions at which `MAGIC` occurs in `t`, ascending. -/
def magicPositions (t : List Char) : List Nat :=
  (List.range (t.length + 1)).filter (fun i => MAGIC.isPrefixOf (t.drop i))

/-- The suffix after the optional greedy `(?:\s*-->)?` group: `\s*` can
only reach the end of the maximal whitespace run (since `-` is not
whitespace), so the group consumes `ws ++ "-->"` when the run is
followed by `-->` and nothing otherwise. -/
def dropCloseTag (t : List Char) : List Char :=
  if closeTag.isPrefixOf (t.drop (wsLen t)) then (t.drop (wsLen t)).drop 3 else t

/-- Match of `(?<data>.*)MAGIC(?:\s*-->)?(?<after>.*)$` against `t`:
the greedy `data` stops at the last occurrence of the marker (the tail
of the pattern always matches), yielding `(data, after)`. -/
def restMatch (t : List Char) : Option (List Char × List Char) :=
  match (magicPositions t).getLast? with
  | none => none
  | some m => some (t.take m, dropCloseTag (t.drop (m + MAGIC.length)))

/-- Attempt to match `MAGIC` at offset `k` of `t` and then the rest of
the pattern. -/
def attemptMagicAt (t : List Char) (k : Nat) : Option (List Char × List Char) :=
  if MAGIC.isPrefixOf (t.drop k) then restMatch (t.drop (k + MAGIC.length)) else none

/-- Backtracking of the greedy `\s*` inside `(?:<!--\s*)?`: try the
marker after `k` whitespace characters, then after fewer. -/
def tryWsFrom (t1 : List Char) : Nat → Option (List Char × List Char)
  | 0 => attemptMagicAt t1 0
  | k + 1 =>
    match attemptMagicAt t1 (k + 1) with
    | some r => some r
    | none => tryWsFrom t1 k

/-- One position of the lazy `before` scan: at position `L` of `c`, try
the optional `<!--\s*` prefix (greedily) and then the bare marker. -/
def attemptAt (c : List Char) (L : Nat) : Option (List Char × List Char) :=
  match (if openTag.isPrefixOf (c.drop L)
         then tryWsFrom ((c.drop L).drop 4) (wsLen ((c.drop L).drop 4))
         else none) with
  | some r => some r
  | none => attemptMagicAt (c.drop L) 0

/-- Lazy scan of `before`: the first position at which the rest of the
pattern matches wins. -/
def findFrom (c : List Char) : Nat → Nat → Option (Nat × List Char × List Char)
  | _, 0 => none
  | L, fuel + 1 =>
    match attemptAt c L with
    | some r => some (L, r.1, r.2)
    | none => findFrom c (L + 1) fuel

/-- The full regex match: `(before, data, after)` groups of the first
(and only, since the regex is anchored) match, if any. -/
def parseCommentMatch (c : List Char) : Option (List Char × List Char × List Char) :=
  match findFrom c 0 (c.length + 1) with
  | some (L, d, a) => some (c.take L, d, a)
  | none => none

/-- Decoded form: the JSON payload and the surrounding envelope text. -/
structure ParsedComment where
  data : Json
  comment : List Char

/-- Model of `parseComment` (`pull.js` lines 10–24): run the regex; on
a match, JSON-parse the `data` group (`Try` is modelled from the spec:
it returns the parsed value, or `undefined` when `JSON.parse` throws,
and `if (!j) return` also rejects a falsy parse result); the envelope
is `before ++ after`. -/
def parseComment (c : List Char) : Option ParsedComment :=
  match parseCommentMatch c with
  | none => none
  | some (before, body, after) =>
    match jsonParse body with
    | none => none
    | some j => if jsTruthy j then some ⟨j, before ++ after⟩ else none

/-- Whether `renderComment` inserts a newline after the envelope: the
envelope is nonempty and does not end in whitespace
(`!c.comment.length || /\s$/.test(c.comment)` negated). -/
def needsNl (comment : List Char) : Bool :=
  match comment.getLast? with
  | none => false
  | some ch => !isWS ch

/-- Model of `renderComment` (`pull.js` lines 26–28). -/
def renderComment (p : ParsedComment) : List Char :=
  p.comment ++ (if needsNl p.comment then ['\n'] else [])
    ++ ('<' :: '!' :: '-' :: '-' :: [' ']) ++ MAGIC ++ jsonStringify p.data
    ++ MAGIC ++ (' ' :: '-' :: '-' :: ['>'])

/-- The characters making up the comment delimiters and the newline
separator; the marker token contains none of them. -/
def tagChar (c : Char) : Prop :=
  c = '<' ∨ c = '!' ∨ c = '-' ∨ c = '>' ∨ c = ' ' ∨ c = '\n'

/-- The `<!-- ` fragment emitted before the marker. -/
def openSp : List Char := '<' :: '!' :: '-' :: '-' :: [' ']

/-- The ` -->` fragment emitted after the closing marker. -/
def closeSp : List Char := ' ' :: '-' :: '-' :: ['>']

instance : DecidablePred tagChar := fun c => by
  unfold tagChar
  infer_instance

theorem magic_chars : ∀ c ∈ MAGIC, ¬tagChar c ∧ isWS c = false := by decide

theorem openSp_chars : ∀ c ∈ openSp, tagChar c := by decide

/-- An occurrence of the marker at offset `i` of `t`. -/
def OccAt (t : List Char) (i : Nat) : Prop := MAGIC.isPrefixOf (t.drop i) = true

theorem occAt_drop (t : List Char) (d k : Nat) : OccAt (t.drop d) k ↔ OccAt t (d + k) := by
  unfold OccAt
  rw [List.drop_drop]

theorem occAt_le {t : List Char} {i : Nat} (h : OccAt t i) : i + MAGIC.length ≤ t.length := by
  unfold OccAt at h
  rw [List.isPrefixOf_iff_prefix] at h
  have hlen := h.length_le
  rw [List.length_drop] at hlen
  have hm : MAGIC.length = 11 := by decide
  rw [hm] at hlen ⊢
  omega

theorem occAt_getElem {t : List Char} {i : Nat} (h : OccAt t i) {j : Nat}
    (hj : j < MAGIC.length) : t[i + j]? = MAGIC[j]? := by
  unfold OccAt at h
  rw [List.isPrefixOf_iff_prefix] at h
  obtain ⟨suf, hsuf⟩ := h
  rw [← List.getElem?_drop, ← hsuf, List.getElem?_append_left hj]

theorem occAt_char {t : List Char} {i : Nat} (h : OccAt t i) {j : Nat}
    (hj : j < MAGIC.length) :
    ∃ c, t[i + j]? = some c ∧ ¬tagChar c ∧ isWS c = false := by
  have h1 := occAt_getElem h hj
  have h2 : MAGIC[j]? = some MAGIC[j] := List.getElem?_eq_getElem hj
  refine ⟨MAGIC[j], by rw [h1, h2], magic_chars _ (List.getElem_mem hj)⟩

theorem occ_inside {a : List Char} (b : List Char) {i : Nat}
    (hi : i + MAGIC.length ≤ a.length) (h : OccAt (a ++ b) i) : OccAt a i := by
  unfold OccAt at h ⊢
  rw [List.isPrefixOf_iff_prefix] at h ⊢
  rw [List.prefix_iff_eq_take] at h ⊢
  rw [List.drop_append_of_le_length (by omega)] at h
  rw [List.take_append_of_le_length (by rw [List.length_drop]; omega)] at h
  exact h

theorem getLast?_eq_max {l : List Nat} (hs : l.Pairwise (· < ·)) {m : Nat} (hm : m ∈ l)
    (hmax : ∀ x ∈ l, x ≤ m) : l.getLast? = some m := by
  induction l with
  | nil => cases hm
  | cons a l ih =>
    cases l with
    | nil =>
      rw [List.mem_singleton] at hm
      subst hm
      rfl
    | cons c t =>
      have hstep : (a :: c :: t).getLast? = (c :: t).getLast? := rfl
      rw [hstep]
      rcases List.mem_cons.mp hm with h1 | h2
      · exfalso
        have hac : a < c := (List.pairwise_cons.mp hs).1 c (by simp)
        have := hmax c (by simp)
        omega
      · exact ih (List.pairwise_cons.mp hs).2 h2 (fun x hx => hmax x (by simp [hx]))

theorem mem_magicPositions {t : List Char} {i : Nat} :
    i ∈ magicPositions t ↔ i ≤ t.length ∧ OccAt t i := by
  unfold magicPositions OccAt
  rw [List.mem_filter, List.mem_range, Nat.lt_succ_iff]

theorem takeWhile_len_le {p : Char → Bool} {l : List Char} {j : Nat} {c : Char}
    (h : l[j]? = some c) (hc : p c = false) : (l.takeWhile p).length ≤ j := by
  induction l generalizing j with
  | nil => simp at h
  | cons a l ih =>
    cases j with
    | zero =>
      simp at h
      subst h
      simp [List.takeWhile_cons, hc]
    | succ j =>
      simp at h
      by_cases hpa : p a
      · simp only [List.takeWhile_cons, hpa, if_pos, List.length_cons]
        have := ih h
        omega
      · simp [List.takeWhile_cons, hpa]

theorem tryWsFrom_none {t1 : List Char} {k : Nat}
    (h : ∀ k', k' ≤ k → attemptMagicAt t1 k' = none) : tryWsFrom t1 k = none := by
  induction k with
  | zero => exact h 0 (by omega)
  | succ k ih =>
    unfold tryWsFrom
    rw [h (k + 1) (by omega)]
    exact ih (fun k' hk' => h k' (by omega))

theorem findFrom_reaches {c : List Char} {Lstar : Nat} {r : List Char × List Char}
    (hok : attemptAt c Lstar = some r) :
    ∀ fuel L, L ≤ Lstar → Lstar < L + fuel →
      (∀ i, L ≤ i → i < Lstar → attemptAt c i = none) →
      findFrom c L fuel = some (Lstar, r.1, r.2) := by
  intro fuel
  induction fuel with
  | zero => intro L h1 h2 h3; omega
  | succ fuel ih =>
    intro L h1 h2 h3
    by_cases hL : L = Lstar
    · subst hL
      unfold findFrom
      rw [hok]
    · unfold findFrom
      rw [h3 L (by omega) (by omega)]
      exact ih (L + 1) (by omega) (by omega) (fun i hi1 hi2 => h3 i (by omega) hi2)

/-- After the first marker of a rendered comment, the greedy `data`
group stops exactly at the closing marker: the last marker occurrence
in `J ++ MAGIC ++ closeSp` is at offset `J.length`. -/
theorem restMatch_rendered (J : List Char) :
    restMatch (J ++ (MAGIC ++ closeSp)) = some (J, []) := by
  have hocc : OccAt (J ++ (MAGIC ++ closeSp)) J.length := by
    unfold OccAt
    rw [List.drop_left]
    exact isPrefixOf_app MAGIC closeSp
  have hlast : ∀ i, J.length < i → ¬OccAt (J ++ (MAGIC ++ closeSp)) i := by
    intro i hi h
    have hle := occAt_le h
    rw [List.length_append, List.length_append] at hle
    have hm : MAGIC.length = 11 := by decide
    have hc : closeSp.length = 4 := by decide
    have hj : (J.length + MAGIC.length) - i < MAGIC.length := by omega
    obtain ⟨c, hcget, hctag, _⟩ := occAt_char h hj
    have hq : i + ((J.length + MAGIC.length) - i) = J.length + MAGIC.length := by omega
    rw [hq] at hcget
    have hsp : (J ++ (MAGIC ++ closeSp))[J.length + MAGIC.length]? = some ' ' := by
      rw [← List.append_assoc,
        List.getElem?_append_right (le_of_eq (List.length_append J MAGIC))]
      rw [List.length_append]
      have h0 : J.length + MAGIC.length - (J.length + MAGIC.length) = 0 := by omega
      rw [h0]
      rfl
    rw [hsp] at hcget
    cases hcget
    exact hctag (by unfold tagChar; tauto)
  have hsorted : (magicPositions (J ++ (MAGIC ++ closeSp))).Pairwise (· < ·) :=
    (List.pairwise_lt_range _).filter _
  have hmem : J.length ∈ magicPositions (J ++ (MAGIC ++ closeSp)) := by
    rw [mem_magicPositions]
    constructor
    · rw [List.length_append]
      omega
    · exact hocc
  have hmax : ∀ x ∈ magicPositions (J ++ (MAGIC ++ closeSp)), x ≤ J.length := by
    intro x hx
    rw [mem_magicPositions] at hx
    by_contra hgt
    exact hlast x (by omega) hx.2
  have h1 : List.take J.length (J ++ (MAGIC ++ closeSp)) = J := List.take_left J _
  have h2 : List.drop (J.length + MAGIC.length) (J ++ (MAGIC ++ closeSp)) = closeSp := by
    rw [show J.length + MAGIC.length = (J ++ MAGIC).length from (List.length_append J MAGIC).symm]
    rw [← List.append_assoc, List.drop_left]
  have h3 : dropCloseTag closeSp = [] := by decide
  unfold restMatch
  rw [getLast?_eq_max hsorted hmem hmax]
  simp [h1, h2, h3]

/-- No marker occurrence strictly before the opening marker of a
rendered comment, provided the prefix `b` is marker-free. -/
theorem occ_early {b : List Char} (tail : List Char) (hB : ∀ i, ¬OccAt b i) :
    ∀ i, i < b.length + 5 → ¬OccAt (b ++ (openSp ++ tail)) i := by
  intro i hi h
  by_cases hcase : i + MAGIC.length ≤ b.length
  · exact hB i (occ_inside _ hcase h)
  · have hm : MAGIC.length = 11 := by decide
    have hq1 : b.length ≤ max i b.length := by omega
    have hq2 : max i b.length < b.length + 5 := by omega
    have hj : max i b.length - i < MAGIC.length := by omega
    obtain ⟨c, hcget, hctag, _⟩ := occAt_char h hj
    have hiq : i + (max i b.length - i) = max i b.length := by omega
    rw [hiq] at hcget
    have hlt : max i b.length - b.length < openSp.length := by
      have h5 : openSp.length = 5 := by decide
      omega
    have hgap : (b ++ (openSp ++ tail))[max i b.length]? = some openSp[max i b.length - b.length] := by
      rw [List.getElem?_append_right hq1, List.getElem?_append_left hlt]
      exact List.getElem?_eq_getElem hlt
    rw [hcget] at hgap
    cases hgap
    exact hctag (openSp_chars _ (List.getElem_mem hlt))

/-- Character view of any literal-pattern match: if `p` matches at
offset `i` of `t`, position `i + j` of `t` holds `p`'s `j`-th
character. -/
theorem prefixOf_getElem {p t : List Char} {i : Nat} (h : p.isPrefixOf (t.drop i) = true)
    {j : Nat} (hj : j < p.length) : t[i + j]? = p[j]? := by
  rw [List.isPrefixOf_iff_prefix] at h
  obtain ⟨suf, hsuf⟩ := h
  rw [← List.getElem?_drop, ← hsuf, List.getElem?_append_left hj]

/-- A failed marker test. -/
theorem attemptMagicAt_none {t : List Char} {k : Nat} (h : ¬OccAt t k) :
    attemptMagicAt t k = none := by
  unfold OccAt at h
  rw [Bool.not_eq_true] at h
  unfold attemptMagicAt
  rw [h]
  simp

/-- The attempt at the opening delimiter of a rendered comment
succeeds, capturing the payload text with an empty `after` group. -/
theorem attemptAt_opening (b J : List Char) :
    attemptAt (b ++ (openSp ++ (MAGIC ++ (J ++ (MAGIC ++ closeSp))))) b.length
      = some (J, []) := by
  unfold attemptAt
  rw [List.drop_left]
  have hopen : openTag.isPrefixOf (openSp ++ (MAGIC ++ (J ++ (MAGIC ++ closeSp)))) = true := by
    rw [show openSp ++ (MAGIC ++ (J ++ (MAGIC ++ closeSp)))
        = openTag ++ (' ' :: (MAGIC ++ (J ++ (MAGIC ++ closeSp)))) from by
      simp [openSp, openTag]]
    exact isPrefixOf_app _ _
  rw [hopen]
  have hdrop4 : (openSp ++ (MAGIC ++ (J ++ (MAGIC ++ closeSp)))).drop 4
      = ' ' :: (MAGIC ++ (J ++ (MAGIC ++ closeSp))) := by
    simp [openSp]
  rw [if_pos rfl, hdrop4]
  have hws1 : wsLen (' ' :: (MAGIC ++ (J ++ (MAGIC ++ closeSp)))) = 1 := by
    unfold wsLen
    rw [show MAGIC ++ (J ++ (MAGIC ++ closeSp))
        = 'T' :: (('e' :: 'l' :: 'l' :: 'R' :: 'e' :: 'q' :: 'u' :: 'e' :: 's' :: ['t'])
          ++ (J ++ (MAGIC ++ closeSp))) from by simp [MAGIC]]
    simp [List.takeWhile_cons, isWS]
  rw [hws1]
  unfold tryWsFrom
  unfold attemptMagicAt
  rw [show (' ' :: (MAGIC ++ (J ++ (MAGIC ++ closeSp)))).drop (0 + 1)
      = MAGIC ++ (J ++ (MAGIC ++ closeSp)) from rfl]
  rw [isPrefixOf_app, if_pos rfl]
  rw [show (' ' :: (MAGIC ++ (J ++ (MAGIC ++ closeSp)))).drop (0 + 1 + MAGIC.length)
      = (MAGIC ++ (J ++ (MAGIC ++ closeSp))).drop MAGIC.length from by
    rw [show (0 : Nat) + 1 + MAGIC.length = 1 + MAGIC.length from by omega]
    rfl]
  rw [List.drop_left, restMatch_rendered]

/-- Every attempt strictly before the envelope's end fails: the lazy
`before` group cannot stop earlier. -/
theorem attemptAt_early {b : List Char} (J : List Char) (hB : ∀ i, ¬OccAt b i) :
    ∀ L, L < b.length →
      attemptAt (b ++ (openSp ++ (MAGIC ++ (J ++ (MAGIC ++ closeSp))))) L = none := by
  intro L hL
  have hocc := occ_early (MAGIC ++ (J ++ (MAGIC ++ closeSp))) hB
  have habs : attemptMagicAt
      ((b ++ (openSp ++ (MAGIC ++ (J ++ (MAGIC ++ closeSp))))).drop L) 0 = none := by
    apply attemptMagicAt_none
    rw [occAt_drop]
    exact hocc (L + 0) (by omega)
  have hlt : (b ++ (openSp ++ (MAGIC ++ (J ++ (MAGIC ++ closeSp)))))[b.length]?
      = some '<' := by
    rw [List.getElem?_append_right (le_refl _), Nat.sub_self]
    rfl
  unfold attemptAt
  by_cases hopen : openTag.isPrefixOf
      ((b ++ (openSp ++ (MAGIC ++ (J ++ (MAGIC ++ closeSp))))).drop L) = true
  · rw [hopen, if_pos rfl]
    by_cases hcase : L + 4 ≤ b.length
    · have htry : tryWsFrom
          (((b ++ (openSp ++ (MAGIC ++ (J ++ (MAGIC ++ closeSp))))).drop L).drop 4)
          (wsLen (((b ++ (openSp ++ (MAGIC ++ (J ++ (MAGIC ++ closeSp))))).drop L).drop 4))
          = none := by
        have hWS : wsLen (((b ++ (openSp ++ (MAGIC ++ (J ++ (MAGIC ++ closeSp))))).drop L).drop 4)
            ≤ b.length - (L + 4) := by
          apply takeWhile_len_le (c := '<')
          · rw [List.getElem?_drop, List.getElem?_drop]
            rw [show L + (4 + (b.length - (L + 4))) = b.length from by omega]
            exact hlt
          · decide
        apply tryWsFrom_none
        intro k' hk'
        apply attemptMagicAt_none
        rw [List.drop_drop, occAt_drop]
        exact hocc _ (by omega)
      rw [htry]
      exact habs
    · exfalso
      have hj : b.length - L < openTag.length := by
        have h4 : openTag.length = 4 := by decide
        omega
      have hchar := prefixOf_getElem hopen hj
      rw [show L + (b.length - L) = b.length from by omega, hlt] at hchar
      have hj1 : 1 ≤ b.length - L := by omega
      have hj3 : b.length - L ≤ 3 := by omega
      interval_cases h : (b.length - L) <;> exact absurd hchar (by decide)
  · rw [if_neg hopen]
    simp only []
    exact habs

/-- The regex groups of a rendered comment: `before` is exactly the
marker-free prefix `b`, `data` is the payload text, `after` is
empty. -/
theorem parseCommentMatch_rendered (b J : List Char) (hB : ∀ i, ¬OccAt b i) :
    parseCommentMatch (b ++ (openSp ++ (MAGIC ++ (J ++ (MAGIC ++ closeSp)))))
      = some (b, J, []) := by
  have hok := attemptAt_opening b J
  have hfail := attemptAt_early J hB
  unfold parseCommentMatch
  rw [findFrom_reaches hok ((b ++ (openSp ++ (MAGIC ++ (J ++ (MAGIC ++ closeSp))))).length + 1)
      0 (by omega) (by rw [List.length_append]; omega) (fun i h1 h2 => hfail i h2)]
  simp [List.take_left]

/-- The executable marker-freeness check implies the absence of every
occurrence. -/
theorem hasMagic_false {t : List Char} (h : hasMagic t = false) : ∀ i, ¬OccAt t i := by
  intro i hocc
  have hle := occAt_le hocc
  have hm : 0 < MAGIC.length := by decide
  unfold hasMagic at h
  rw [List.any_eq_false] at h
  exact absurd hocc (by simpa [OccAt] using h i (List.mem_range.mpr (by omega)))

/-- The newline `renderComment` may add to the envelope contains no
marker either: the marker is letters only. -/
theorem envSep_noOcc {env : List Char} (h : hasMagic env = false) :
    ∀ i, ¬OccAt (env ++ (if needsNl env then ['\n'] else [])) i := by
  cases hnl : needsNl env with
  | false =>
    intro i hocc
    simp at hocc
    exact hasMagic_false h i hocc
  | true =>
    intro i hocc
    simp at hocc
    have hle := occAt_le hocc
    rw [List.length_append] at hle
    by_cases hcase : i + MAGIC.length ≤ env.length
    · exact hasMagic_false h i (occ_inside _ hcase hocc)
    · have hm : MAGIC.length = 11 := by decide
      have hj : env.length - i < MAGIC.length := by
        simp at hle
        omega
      obtain ⟨c, hcget, hctag, _⟩ := occAt_char hocc hj
      rw [show i + (env.length - i) = env.length from by
        simp at hle
        omega] at hcget
      have hnlchar : (env ++ ['\n'])[env.length]? = some '\n' := by
        rw [List.getElem?_append_right (le_refl _), Nat.sub_self]
        rfl
      rw [hnlchar] at hcget
      cases hcget
      exact hctag (by unfold tagChar; tauto)

/-- Shape of `renderComment`: envelope, optional newline, `<!-- `,
marker, printed payload, marker, ` -->`. -/
theorem renderComment_shape (p : Json) (env : List Char) :
    renderComment ⟨p, env⟩ = (env ++ (if needsNl env then ['\n'] else []))
      ++ (openSp ++ (MAGIC ++ (printVal 0 p ++ (MAGIC ++ closeSp)))) := by
  unfold renderComment openSp closeSp jsonStringify
  simp [List.append_assoc]

/-- Round trip of the codec on the string level and the JSON level:
decoding a rendered comment recovers the payload exactly and the
envelope with the possible added newline.  The payload must be truthy
(`parseComment` discards falsy parses) and the envelope marker-free. -/
theorem parseComment_renderComment (p : Json) (env : List Char)
    (hmag : hasMagic env = false) (ht : jsTruthy p = true) :
    parseComment (renderComment ⟨p, env⟩)
      = some ⟨p, env ++ (if needsNl env then ['\n'] else [])⟩ := by
  rw [renderComment_shape]
  unfold parseComment
  rw [parseCommentMatch_rendered _ _ (envSep_noOcc hmag)]
  have hj : jsonParse (printVal 0 p) = some p := jsonParse_stringify p
  simp [hj, ht]

/-! ## Persistence (`App.persist`, lines 105–110) and settings load
(`App.onSettingsLoad`, lines 232–237)

The network fetch and write are external collaborators; the models
below take the fetched field text as an argument and produce the text
written back (for `persist`) or the value handed to `App.import` (for
`onSettingsLoad`). -/

/-- The decode step of `App.persist`:
`parseComment(currentValue) || \x7b comment: currentValue, data: \x7b\x7d \x7d` —
on decode failure the whole fetched text becomes the envelope and the
payload is the empty object. -/
def persistDecode (currentValue : List Char) : ParsedComment :=
  (parseComment currentValue).getD ⟨Json.obj [], currentValue⟩

/-- The text `App.persist` writes back: the decoded (or fallen-back)
comment with its payload replaced by the app's exported presentation,
re-encoded by `renderComment`. -/
def persistRendered (currentValue : List Char) (exported : Json) : List Char :=
  renderComment ⟨exported, (persistDecode currentValue).comment⟩

/-- The value `App.onSettingsLoad` passes to `App.import`: the code
reads `parseComment(currentValue).data` without any fallback, so a
decode failure is a property access on `undefined` — a thrown
`TypeError`, modelled as `Except.error`. -/
def onSettingsLoadPayload (currentValue : List Char) : Except Unit Json :=
  match parseComment currentValue with
  | none => .error ()
  | some p => .ok p.data

/-! ## The max-id scan of `App.import` (lines 80–92)

`getAllIds(o)` returns `o.id` when it is truthy and otherwise flat-maps
itself over `Object.values(o)`, recursing into arrays and objects and
skipping primitives.  JavaScript corner cases are modelled exactly:
`Object.values(null)` throws (`Except.error`), an object with a truthy
`id` stops the recursion at that object, and a truthy top-level `id`
makes `getAllIds` return a scalar on which the subsequent `.map` call
throws.  A `parseInt` result of `NaN` would make the comparator-based
sort order implementation-defined; the model marks that case as an
error and no theorem relies on it. -/

/-- First binding of a key in an object's field list (JavaScript
objects cannot carry duplicate keys). -/
def lookupField (fs : List (List Char × Json)) (k : List Char) : Option Json :=
  (fs.find? (fun f => f.1 = k)).map (fun f => f.2)

/-- The truthy `id` property of a value, if any (`o?.id` guarded by
`if (o?.id)`); only objects carry properties looked up this way. -/
def getId? (j : Json) : Option Json :=
  match j with
  | .obj fs =>
    match lookupField fs ('i' :: ['d']) with
    | some v => if jsTruthy v then some v else none
    | none => none
  | _ => none

mutual

/-- Model of `getAllIds` from `App.import`: the collected id values in
order, or an error when the JavaScript code would throw
(`Object.values(null)`).  The truthy-`id` early return (`if (o?.id)
return o?.id`) can only fire on an object; on every other shape the
function goes straight to `Object.values`, which throws on `null`,
walks the members of objects and arrays, and yields nothing on other
primitives. -/
def getAllIds : Json → Except Unit (List Json)
  | .obj fs =>
    (match getId? (.obj fs) with
     | some v => .ok [v]
     | none => idsOfFields fs)
  | .null => .error ()
  | .arr xs => idsOfValues xs
  | _ => .ok []
  termination_by o => (sizeOf o, 1)

/-- The callback of `Object.values(o).flatMap`: arrays are flat-mapped
with `getAllIds`, objects (and `null`, whose `typeof` is `'object'`)
recurse, primitives contribute nothing. -/
def idsOfValue : Json → Except Unit (List Json)
  | .arr xs => idsOfElems xs
  | .obj fs => getAllIds (.obj fs)
  | .null => getAllIds .null
  | _ => .ok []
  termination_by v => (sizeOf v, 2)

/-- `flatMap` of `idsOfValue` over an object's or array's values. -/
def idsOfValues : List Json → Except Unit (List Json)
  | [] => .ok []
  | v :: vs => do
    let a ← idsOfValue v
    let b ← idsOfValues vs
    .ok (a ++ b)
  termination_by vs => (sizeOf vs, 0)

/-- `v.flatMap(getAllIds)` over the elements of a nested array. -/
def idsOfElems : List Json → Except Unit (List Json)
  | [] => .ok []
  | x :: xs => do
    let a ← getAllIds x
    let b ← idsOfElems xs
    .ok (a ++ b)
  termination_by xs => (sizeOf xs, 0)

/-- Object member values, in order (`Object.values`). -/
def idsOfFields : List (List Char × Json) → Except Unit (List Json)
  | [] => .ok []
  | (_, v) :: fs => do
    let a ← idsOfValue v
    let b ← idsOfFields fs
    .ok (a ++ b)
  termination_by fs => (sizeOf fs, 0)

end

/-- Decimal integer prefix of a string after optional whitespace and
sign: the fragment of `parseInt` relevant to id strings. -/
def parseIntStr (s : List Char) : Option Int :=
  match skipWS s with
  | '-' :: r =>
    (match parseNatPart r with
     | some (m, _) => some (-(m : Int))
     | none => none)
  | r =>
    match parseNatPart r with
    | some (m, _) => some ((m : Int))
    | none => none

/-- `parseInt(x)` on a collected id value: numbers are exact (the model
carries integers), strings are parsed, every other shape yields `NaN`
(modelled as `none`). -/
def jsParseInt : Json → Option Int
  | .num n => some n
  | .str s => parseIntStr s
  | _ => none

/-- `list.sort((a, b) => b - a).first() || 1` on the parsed ids: the
first element of the descending sort is the maximum; an empty list
gives `undefined` and a maximum of `0` is falsy, both falling back to
`1`. -/
def maxIdSeed (ids : List Int) : Int :=
  match ids.max? with
  | none => 1
  | some m => if m = 0 then 1 else m

/-- The seed `App.import` passes to `Ids.initId`:
`getAllIds(data).map(parseInt).toArray().sort((a,b) => b-a).first() || 1`
(`toArray` and `first` are array helpers from `common.js`, modelled
from their use as the identity and the head of the array).  Errors mark
the inputs on which the JavaScript code throws or sorts with `NaN`. -/
def maxIdOf (data : Json) : Except Unit Int :=
  if (getId? data).isSome then .error ()
  else do
    let ids ← getAllIds data
    let parsed := ids.map jsParseInt
    if parsed.contains none then .error ()
    else .ok (maxIdSeed (parsed.reduceOption))

mutual

/-- Spec-words definition, for comparison with `maxIdOf` only: "the
maximum id found anywhere in the imported payload, recursively,
defaulting to 1 if none found" — a full recursive walk that collects
every `id` field of every nested object and array, with no stop at
id-bearing objects. -/
def specAllIds : Json → List Int
  | .obj fs =>
    (match lookupField fs ('i' :: ['d']) with
     | some (.num n) => [n]
     | _ => []) ++ specIdsFields fs
  | .arr xs => specIdsItems xs
  | _ => []

/-- Spec-words walk over object members. -/
def specIdsFields : List (List Char × Json) → List Int
  | [] => []
  | f :: fs => specAllIds f.2 ++ specIdsFields fs

/-- Spec-words walk over array elements. -/
def specIdsItems : List Json → List Int
  | [] => []
  | x :: xs => specAllIds x ++ specIdsItems xs

end

/-- Spec-words seed: maximum of all recursively found ids, default 1. -/
def specSeedOf (data : Json) : Int :=
  match (specAllIds data).max? with
  | none => 1
  | some m => m

/-! ## Canonical comment payloads (for the max-id scan claims) -/

/-- A context object of the canonical payload shape (no `id` field). -/
def ctxJson : Json :=
  Json.obj [("file".data, Json.str "a.go".data), ("lineNo".data, Json.num 10)]

/-- One comment record of the canonical payload shape. -/
def commentJson (i : Int) : Json :=
  Json.obj [("id".data, Json.num i), ("context".data, ctxJson), ("text".data, Json.str "t".data)]

/-- A canonical payload: a `comments` array of comment records with the
given ids. -/
def payloadOfIds (ids : List Int) : Json :=
  Json.obj [("comments".data, Json.arr (ids.map commentJson))]

theorem getAllIds_commentJson (i : Int) (hi : 0 < i) :
    getAllIds (commentJson i) = .ok [Json.num i] := by
  unfold commentJson
  rw [getAllIds]
  rw [show getId? (Json.obj [("id".data, Json.num i), ("context".data, ctxJson),
        ("text".data, Json.str "t".data)]) = some (Json.num i) from by
    unfold getId? lookupField
    simp [jsTruthy]
    omega]

theorem contains_none_map_some (ids : List Int) :
    (ids.map some).contains (none : Option Int) = false := by
  induction ids with
  | nil => rfl
  | cons i ids ih => simp [ih]

theorem reduceOption_map_some (ids : List Int) : (ids.map some).reduceOption = ids := by
  induction ids with
  | nil => rfl
  | cons i ids ih => simp [List.reduceOption_cons_of_some, ih]

theorem idsOfElems_comments (ids : List Int) (h : ∀ i ∈ ids, 0 < i) :
    idsOfElems (ids.map commentJson) = .ok (ids.map Json.num) := by
  induction ids with
  | nil => simp [idsOfElems]
  | cons i ids ih =>
    rw [List.map_cons, idsOfElems, getAllIds_commentJson i (h i (by simp))]
    rw [ih (fun j hj => h j (by simp [hj]))]
    rfl

theorem maxIdOf_payload (ids : List Int) (h : ∀ i ∈ ids, 0 < i) :
    maxIdOf (payloadOfIds ids) = .ok (maxIdSeed ids) := by
  have hids : getAllIds (payloadOfIds ids) = .ok (ids.map Json.num) := by
    unfold payloadOfIds
    rw [getAllIds]
    rw [show getId? (Json.obj [("comments".data, Json.arr (ids.map commentJson))]) = none from by
      unfold getId? lookupField
      simp]
    rw [idsOfFields, idsOfValue, idsOfElems_comments ids h, idsOfFields]
    show Except.ok ((ids.map Json.num) ++ []) = Except.ok (ids.map Json.num)
    simp
  have hgid : getId? (payloadOfIds ids) = none := by
    unfold payloadOfIds getId? lookupField
    simp
  unfold maxIdOf
  rw [hgid]
  simp only [Option.isSome_none, Bool.false_eq_true, if_false, hids]
  have hparse : (ids.map Json.num).map jsParseInt = ids.map some := by
    rw [List.map_map]
    rfl
  have hcontains := contains_none_map_some ids
  have hreduce := reduceOption_map_some ids
  rw [show ((Except.ok (ids.map Json.num) : Except Unit (List Json)) >>= fun ids' =>
      if (ids'.map jsParseInt).contains none then Except.error ()
      else Except.ok (maxIdSeed ((ids'.map jsParseInt).reduceOption))) =
      (if ((ids.map Json.num).map jsParseInt).contains none then Except.error ()
      else Except.ok (maxIdSeed (((ids.map Json.num).map jsParseInt).reduceOption))) from rfl]
  rw [hparse, hcontains]
  simp [hreduce]

/-- The payload refuting the spec's full-recursion description of the
max-id scan: a comment with id 3 whose extra child object carries
id 7. -/
def nestedIdPayload : Json :=
  Json.obj [("comments".data, Json.arr [Json.obj
    [("id".data, Json.num 3), ("extra".data, Json.obj [("id".data, Json.num 7)])]])]

theorem maxIdOf_nested : maxIdOf nestedIdPayload = .ok 3 := by
  unfold maxIdOf nestedIdPayload
  rw [show getId? (Json.obj [("comments".data, Json.arr [Json.obj
    [("id".data, Json.num 3), ("extra".data, Json.obj [("id".data, Json.num 7)])]])]) = none from by
    unfold getId? lookupField
    simp]
  simp only [Option.isSome_none, Bool.false_eq_true, if_false]
  rw [show getAllIds (Json.obj [("comments".data, Json.arr [Json.obj
    [("id".data, Json.num 3), ("extra".data, Json.obj [("id".data, Json.num 7)])]])])
      = .ok [Json.num 3] from by
    rw [getAllIds]
    simp only [getId?, lookupField]
    norm_num
    rw [idsOfFields, idsOfValue, idsOfElems, getAllIds]
    simp only [getId?, lookupField]
    norm_num
    rw [idsOfElems, idsOfFields]
    rfl]
  rfl

theorem specSeedOf_nested : specSeedOf nestedIdPayload = 7 := by
  simp [specSeedOf, nestedIdPayload, specAllIds.eq_def, specIdsFields, specIdsItems, lookupField]

/-! ## The id allocator (`Ids`, from `model/model.js`, not in the
source tree) -/

/-- Modelled from the spec: the `Ids` allocator is a single counter;
`initId(seed)` sets it to `seed`. -/
structure IdsState where
  counter : Int

/-- Modelled from the spec: `initId(seed)` sets the internal counter to
`seed`. -/
def initId (seed : Int) : IdsState := ⟨seed⟩

/-- Modelled from the spec: `nextId()` returns `seed+1, seed+2, …` on
successive calls. -/
def nextId (st : IdsState) : Int × IdsState :=
  (st.counter + 1, ⟨st.counter + 1⟩)

/-! ## The statement sequence of `App.import` (lines 69–99)

`Presentation` lives in `model/model.js`, which is not in the source
tree; per the spec it is an ordered collection of annotations whose
mutators deliver one synchronous change notification before returning.
The temporal claims about `App.import` are settled against the ordered
trace of its statements, together with a small state semantics for the
view tree and for the listener set. -/

/-- The observable steps of `App.import`, in program order. -/
inductive ImportStep where
  | removeAllVisuals : ImportStep
  | awaitChangeDelivered : ImportStep
  | initIdStep (seed : Int) : ImportStep
  | newPresentation : ImportStep
  | subscribeView : ImportStep
  | presentationImport : ImportStep
  | subscribePersist : ImportStep
  | assignPresentation : ImportStep
deriving DecidableEq

/-- The statement order of `App.import`: when the previous presentation
is nonempty (`if (this.presentation.length)`), it first removes all its
visuals and awaits delivery of the resulting change event; it then
seeds the allocator, constructs the new `Presentation`, subscribes the
view-reconciliation listener, imports the data (which fires the change
event), subscribes the persistence listener, and installs the new
presentation. -/
def importTrace (prevIds : List Int) (seed : Int) : List ImportStep :=
  (if prevIds = [] then [] else [.removeAllVisuals, .awaitChangeDelivered])
    ++ [.initIdStep seed, .newPresentation, .subscribeView, .presentationImport,
        .subscribePersist, .assignPresentation]

/-- View-tree state while `App.import` runs: the ids of view nodes of
the old presentation and of the new one. -/
structure ViewState where
  oldViews : List Int
  newViews : List Int

/-- Effect of one import step on the view tree: the remove-all change
notification (delivered synchronously by `removeAllVisuals`) detaches
every old view node; the import change notification creates the new
ones. -/
def stepView (dataIds : List Int) (st : ViewState) : ImportStep → ViewState
  | .removeAllVisuals => ⟨[], st.newViews⟩
  | .presentationImport => ⟨st.oldViews, dataIds⟩
  | _ => st

/-- All view states reached while executing `steps` from `st`
(including the initial one). -/
def viewStates (dataIds : List Int) (st : ViewState) : List ImportStep → List ViewState
  | [] => [st]
  | s :: rest => st :: viewStates dataIds (stepView dataIds st s) rest

/-- The two change listeners of a presentation. -/
inductive Listener where
  | view : Listener
  | persist : Listener
deriving DecidableEq

/-- Listeners subscribed to the new presentation after a prefix of
the trace of `App.import`, in subscription order. -/
def subsAfter (steps : List ImportStep) : List Listener :=
  steps.foldl
    (fun acc s =>
      match s with
      | .subscribeView => acc ++ [.view]
      | .subscribePersist => acc ++ [.persist]
      | _ => acc) []

/-- The listeners the change event fired by `presentation.import(data)`
is delivered to: those subscribed when the step runs. -/
def importFireDelivery (steps : List ImportStep) : List Listener :=
  subsAfter (steps.takeWhile (fun s => s ≠ ImportStep.presentationImport))

/-! ## Selection (`App.selectVisual`, lines 211–216)

The DOM view nodes (from `ui/ui.js`, not in the source tree) are
modelled from the spec as the list of visual roots with their id and
whether they carry the `selected` class; every visual root matches the
`.MAGIC.visual-root` selector used to clear the previous selection. -/

/-- Result of `selectVisual`: the new view-node states and whether a
`select` event was dispatched. -/
structure SelectResult where
  viewNodes : List (Int × Bool)
  dispatched : Bool

/-- The `selected` flag of the view node with the given id, if that
node exists. -/
def selFlag (nodes : List (Int × Bool)) (id : Int) : Option Bool :=
  (nodes.find? (fun p => p.1 = id)).map (fun p => p.2)

/-- Clear the `selected` class everywhere
(`querySelectorAll('.MAGIC.visual-root.selected') … remove`). -/
def clearSelected (nodes : List (Int × Bool)) : List (Int × Bool) :=
  nodes.map (fun p => (p.1, false))

/-- Add the `selected` class to the node with the given id
(`findVisualUI` uses `querySelector`, which returns the first match,
so only the first node with the id is marked). -/
def markSelected (nodes : List (Int × Bool)) (id : Int) : List (Int × Bool) :=
  match nodes with
  | [] => []
  | p :: rest => if p.1 = id then (p.1, true) :: rest else p :: markSelected rest id

/-- Model of `App.selectVisual`: `none` when no view node exists for
the id (the unguarded `findVisualUI(id).rootElem` throws); a no-op
without an event when the node is already selected; otherwise clear
every selected marker, mark the target, and dispatch `select`. -/
def selectVisual (nodes : List (Int × Bool)) (id : Int) : Option SelectResult :=
  match selFlag nodes id with
  | none => none
  | some true => some ⟨nodes, false⟩
  | some false => some ⟨markSelected (clearSelected nodes) id, true⟩

/-- Number of view nodes carrying the `selected` marker. -/
def selCount (nodes : List (Int × Bool)) : Nat :=
  (nodes.filter (fun p => p.2)).length

/-! ## Claims -/

/-- Claim C1, counterexample: encoding the payload `\x7b\x7d` with the
envelope `"abc"` and decoding yields the envelope `"abc\n"`, not
`"abc"` — the codec round-trip law fails as stated for envelopes that
do not end in whitespace. -/
theorem c1_counterexample :
    parseComment (renderComment ⟨Json.obj [], "abc".data⟩)
        = some ⟨Json.obj [], "abc".data ++ ['\n']⟩
    ∧ "abc".data ++ ['\n'] ≠ "abc".data
    ∧ parseComment (renderComment ⟨Json.obj [], "abc".data⟩)
        ≠ some ⟨Json.obj [], "abc".data⟩ := by
  have h := parseComment_renderComment (Json.obj []) "abc".data (by decide) (by decide)
  rw [show (if needsNl "abc".data then ['\n'] else []) = ['\n'] from by decide] at h
  refine ⟨h, by decide, ?_⟩
  rw [h]
  intro hcontra
  rw [Option.some.injEq, ParsedComment.mk.injEq] at hcontra
  exact absurd hcontra.2 (by decide)

/-- Claim C1 (amended): for every payload whose JSON value is truthy
and every envelope not containing the marker token, decoding the
encoding yields exactly the payload, and yields the envelope exactly
when it is empty or ends in whitespace, and the envelope followed by
one newline otherwise.  (The code appends that newline before the
block and returns it as part of the `before` group on decode; payloads
whose JSON value is falsy — `null`, `false`, `0`, `""` — are discarded
by decode's truthiness test.) -/
theorem c1_roundtrip_amended (p : Json) (env : List Char)
    (hmag : hasMagic env = false) (ht : jsTruthy p = true) :
    parseComment (renderComment ⟨p, env⟩)
      = some ⟨p, env ++ (if needsNl env then ['\n'] else [])⟩ :=
  parseComment_renderComment p env hmag ht

/-- Witness for C1's amended round trip at a concrete truthy payload
and marker-free envelope. -/
theorem c1_roundtrip_amended_witness :
    hasMagic "note:".data = false ∧ jsTruthy (Json.obj []) = true
    ∧ parseComment (renderComment ⟨Json.obj [], "note:".data⟩)
        = some ⟨Json.obj [], "note:".data ++ (if needsNl "note:".data then ['\n'] else [])⟩ :=
  ⟨by decide, by decide, c1_roundtrip_amended (Json.obj []) "note:".data (by decide) (by decide)⟩

/-- Claim C2, counterexample: on a field text with no delimited block,
`parseComment` reports absent and the settings-load path dereferences
`undefined` — the decode failure surfaces as a thrown `TypeError`
instead of being recovered. -/
theorem c2_counterexample :
    parseComment "hello".data = none
    ∧ onSettingsLoadPayload "hello".data = Except.error () := by
  have h : parseComment "hello".data = none := by rfl
  refine ⟨h, ?_⟩
  unfold onSettingsLoadPayload
  rw [h]

/-- Claim C2 (amended): on decode failure the persist path falls back
to the whole fetched text as envelope with an empty payload object and
surfaces no error, but the settings-load path does not recover: it
fails on the property access `parseComment(currentValue).data`. -/
theorem c2_amended (cv : List Char) (h : parseComment cv = none) :
    persistDecode cv = ⟨Json.obj [], cv⟩
    ∧ onSettingsLoadPayload cv = Except.error () := by
  constructor
  · unfold persistDecode
    rw [h]
    rfl
  · unfold onSettingsLoadPayload
    rw [h]

/-- Witness for C2's amended claim on a concrete block-free text. -/
theorem c2_amended_witness :
    persistDecode "plain text".data = ⟨Json.obj [], "plain text".data⟩
    ∧ onSettingsLoadPayload "plain text".data = Except.error () :=
  c2_amended "plain text".data (by rfl)

/-- Claim C3, counterexample: on a payload whose comment with id 3
carries a nested object with id 7, the import scan seeds 3 — the
recursion stops at any object exposing a truthy `id`, so it is not the
maximum over every nested object as the claim states (the spec-words
full recursion `specSeedOf` finds 7). -/
theorem c3_counterexample :
    maxIdOf nestedIdPayload = .ok 3
    ∧ specSeedOf nestedIdPayload = 7
    ∧ (3 : Int) ≠ 7 :=
  ⟨maxIdOf_nested, specSeedOf_nested, by decide⟩

/-- Claim C3 (amended): the seed is the maximum id collected by the
traversal that stops at the first truthy `id` on each path (so for
canonical payloads — a `comments` array of records with positive ids
and id-free contexts — it is the maximum comment id), defaulting to 1
when no id is found or the maximum is 0; the seed is passed to
`Ids.initId` before the new `Presentation` is constructed, and
`nextId` after seeding 7 returns 8. -/
theorem c3_seed_amended :
    (∀ ids : List Int, (∀ i ∈ ids, 0 < i) →
      maxIdOf (payloadOfIds ids) = .ok (maxIdSeed ids))
    ∧ (∀ (prevIds : List Int) (seed : Int), ∃ pre,
        importTrace prevIds seed = pre
          ++ [ImportStep.initIdStep seed, ImportStep.newPresentation,
              ImportStep.subscribeView, ImportStep.presentationImport,
              ImportStep.subscribePersist, ImportStep.assignPresentation]
        ∧ ImportStep.newPresentation ∉ pre)
    ∧ (nextId (initId 7)).1 = 8 := by
  refine ⟨maxIdOf_payload, fun prevIds seed => ?_, rfl⟩
  cases prevIds with
  | nil => exact ⟨[], rfl, by simp⟩
  | cons p ps =>
    refine ⟨[ImportStep.removeAllVisuals, ImportStep.awaitChangeDelivered], ?_, by decide⟩
    unfold importTrace
    simp

/-- Witness for C3's amended claim: the spec scenario — nested ids
`[3, 7, 5]` seed the allocator to 7 and the next id is 8. -/
theorem c3_seed_amended_witness :
    maxIdOf (payloadOfIds [3, 7, 5]) = .ok (maxIdSeed [3, 7, 5])
    ∧ maxIdSeed [3, 7, 5] = 7
    ∧ (nextId (initId 7)).1 = 8 :=
  ⟨c3_seed_amended.1 [3, 7, 5] (by decide), by decide, c3_seed_amended.2.2⟩

/-- Claim C4: `App.persist` is exactly fetch → decode-with-fallback →
replace payload with the export → re-encode → write: the written text
is the decoded envelope (the entire fetched text when decode reports
absent, together with the empty payload object), kept verbatim as a
prefix, followed by the delimited block around the exported payload. -/
theorem c4_persist_pipeline (cv : List Char) (ex : Json) :
    persistRendered cv ex
      = ((persistDecode cv).comment ++ (if needsNl (persistDecode cv).comment then ['\n'] else []))
        ++ (openSp ++ (MAGIC ++ (jsonStringify ex ++ (MAGIC ++ closeSp))))
    ∧ (parseComment cv = none →
        (persistDecode cv).comment = cv ∧ (persistDecode cv).data = Json.obj []) := by
  constructor
  · unfold persistRendered
    exact renderComment_shape ex (persistDecode cv).comment
  · intro h
    unfold persistDecode
    rw [h]
    exact ⟨rfl, rfl⟩

/-- Witness for C4 at a concrete fetched text with no prior block. -/
theorem c4_persist_pipeline_witness :
    persistRendered "hi".data (Json.obj [])
      = ((persistDecode "hi".data).comment
          ++ (if needsNl (persistDecode "hi".data).comment then ['\n'] else []))
        ++ (openSp ++ (MAGIC ++ (jsonStringify (Json.obj []) ++ (MAGIC ++ closeSp))))
    ∧ ((persistDecode "hi".data).comment = "hi".data
        ∧ (persistDecode "hi".data).data = Json.obj []) :=
  ⟨(c4_persist_pipeline "hi".data (Json.obj [])).1,
   (c4_persist_pipeline "hi".data (Json.obj [])).2 (by rfl)⟩

/-- Claim C5: the decoder is a total function that reports absent
rather than raising, both when the regex finds no delimited block and
when the interior of the found block fails to parse as JSON. -/
theorem c5_decode_total :
    (∀ c, parseCommentMatch c = none → parseComment c = none)
    ∧ (∀ c b d a, parseCommentMatch c = some (b, d, a) → jsonParse d = none →
        parseComment c = none) := by
  constructor
  · intro c h
    unfold parseComment
    rw [h]
  · intro c b d a h hj
    unfold parseComment
    rw [h]
    simp [hj]

/-- Witness for C5: a block-free text decodes to absent, and so does a
delimited block whose interior is not JSON. -/
theorem c5_decode_total_witness :
    parseComment "plain".data = none
    ∧ parseComment (openSp ++ (MAGIC ++ ("notjson".data ++ (MAGIC ++ closeSp)))) = none := by
  constructor
  · exact c5_decode_total.1 "plain".data (by rfl)
  · refine c5_decode_total.2 _ [] "notjson".data [] ?_ (by rfl)
    have hB : ∀ i, ¬OccAt ([] : List Char) i := by
      intro i
      unfold OccAt
      simp [MAGIC, List.isPrefixOf]
    have h := parseCommentMatch_rendered [] "notjson".data hB
    simpa using h

/-- Claim C6: when the previous presentation is nonempty, `App.import`
first removes all its visuals and awaits delivery of the resulting
change event, and only then seeds the allocator and builds the new
presentation — so at no point during the import trace do old and new
view trees coexist. -/
theorem c6_import_no_coexist (prevIds dataIds : List Int) (seed : Int)
    (hprev : prevIds ≠ []) :
    importTrace prevIds seed
      = ImportStep.removeAllVisuals :: ImportStep.awaitChangeDelivered ::
        [ImportStep.initIdStep seed, ImportStep.newPresentation, ImportStep.subscribeView,
         ImportStep.presentationImport, ImportStep.subscribePersist,
         ImportStep.assignPresentation]
    ∧ ∀ st ∈ viewStates dataIds ⟨prevIds, []⟩ (importTrace prevIds seed),
        st.oldViews = [] ∨ st.newViews = [] := by
  constructor
  · unfold importTrace
    rw [if_neg hprev]
    rfl
  · intro st hst
    unfold importTrace at hst
    rw [if_neg hprev] at hst
    simp only [viewStates, stepView, List.cons_append, List.nil_append, List.mem_cons,
      List.not_mem_nil, or_false] at hst
    rcases hst with h | h | h | h | h | h | h | h | h
    all_goals (cases h; simp)

/-- Witness for C6 with one previous visual and two imported ones. -/
theorem c6_import_no_coexist_witness :
    importTrace [1] 7
      = ImportStep.removeAllVisuals :: ImportStep.awaitChangeDelivered ::
        [ImportStep.initIdStep 7, ImportStep.newPresentation, ImportStep.subscribeView,
         ImportStep.presentationImport, ImportStep.subscribePersist,
         ImportStep.assignPresentation]
    ∧ ∀ st ∈ viewStates [2, 3] ⟨[1], []⟩ (importTrace [1] 7),
        st.oldViews = [] ∨ st.newViews = [] :=
  c6_import_no_coexist [1] [2, 3] 7 (by decide)

/-- The spec's scenario payload:
`\x7bcomments:[\x7bid:2,context:\x7bfile:"a.go",lineNo:10\x7d,text:"fix this"\x7d]\x7d`. -/
def scenarioPayload : Json :=
  Json.obj [("comments".data, Json.arr [Json.obj
    [("id".data, Json.num 2),
     ("context".data, Json.obj [("file".data, Json.str "a.go".data),
                                ("lineNo".data, Json.num 10)]),
     ("text".data, Json.str "fix this".data)]])]

/-- Claim C7: encoding the scenario payload with envelope
`"Summary\n"` and decoding the result yields back exactly that payload
and the envelope `"Summary\n"` (which ends in whitespace, so no
newline is added). -/
theorem c7_scenario :
    parseComment (renderComment ⟨scenarioPayload, "Summary\n".data⟩)
      = some ⟨scenarioPayload, "Summary\n".data⟩ := by
  have h := parseComment_renderComment scenarioPayload "Summary\n".data (by decide) (by decide)
  rw [show (if needsNl "Summary\n".data then ['\n'] else []) = [] from by decide] at h
  simpa using h

/-- Claim C8: with an empty envelope, `renderComment` inserts no
newline — the output begins directly with the `<!-- ` delimiter of the
encoded block. -/
theorem c8_empty_envelope (p : Json) :
    renderComment ⟨p, []⟩ = openSp ++ (MAGIC ++ (jsonStringify p ++ (MAGIC ++ closeSp))) := by
  have h := renderComment_shape p []
  rw [show (if needsNl [] then ['\n'] else []) = [] from by decide] at h
  simpa using h

/-- Claim C9: selection via `selectVisual` — selecting the already
selected id changes no node and dispatches no event; a selection that
dispatches leaves every other node unmarked; and the single-selection
invariant is preserved by every select operation. -/
theorem c9_selection (nodes : List (Int × Bool)) (id : Int) :
    (selFlag nodes id = some true → selectVisual nodes id = some ⟨nodes, false⟩)
    ∧ (∀ r, selectVisual nodes id = some r → r.dispatched = true →
        ∀ q ∈ r.viewNodes, q.1 ≠ id → q.2 = false)
    ∧ (∀ r, selectVisual nodes id = some r → selCount nodes ≤ 1 → selCount r.viewNodes ≤ 1) := by
  have hmark : ∀ l : List (Int × Bool), (∀ p ∈ l, p.2 = false) →
      (∀ q ∈ markSelected l id, q.1 ≠ id → q.2 = false) ∧ selCount (markSelected l id) ≤ 1 := by
    intro l
    induction l with
    | nil =>
      intro _
      refine ⟨fun q hq => ?_, ?_⟩
      · cases hq
      · simp [markSelected, selCount]
    | cons p rest ih =>
      intro hall
      have hrest := ih (fun q hq => hall q (by simp [hq]))
      by_cases hp : p.1 = id
      · constructor
        · intro q hq hq1
          rw [show markSelected (p :: rest) id = (p.1, true) :: rest from by
            simp [markSelected, hp]] at hq
          rcases List.mem_cons.mp hq with h | h
          · exact absurd (by rw [h]; exact hp) hq1
          · exact hall q (by simp [h])
        · rw [show markSelected (p :: rest) id = (p.1, true) :: rest from by
            simp [markSelected, hp]]
          have hzero : selCount rest = 0 := by
            unfold selCount
            rw [List.length_eq_zero]
            rw [List.filter_eq_nil_iff]
            intro q hq
            simp [hall q (by simp [hq])]
          unfold selCount at hzero ⊢
          simp [hzero, List.filter_cons]
      · constructor
        · intro q hq hq1
          rw [show markSelected (p :: rest) id = p :: markSelected rest id from by
            simp [markSelected, hp]] at hq
          rcases List.mem_cons.mp hq with h | h
          · exact hall q (by simp [h])
          · exact hrest.1 q h hq1
        · rw [show markSelected (p :: rest) id = p :: markSelected rest id from by
            simp [markSelected, hp]]
          unfold selCount at hrest ⊢
          rw [List.filter_cons]
          have hpfalse : p.2 = false := hall p (by simp)
          simp [hpfalse]
          exact hrest.2
  have hclear : ∀ p ∈ clearSelected nodes, p.2 = false := by
    intro p hp
    unfold clearSelected at hp
    obtain ⟨q, _, hq⟩ := List.mem_map.mp hp
    rw [← hq]
  refine ⟨fun h => ?_, fun r hr hd => ?_, fun r hr hcnt => ?_⟩
  · unfold selectVisual
    rw [h]
  · unfold selectVisual at hr
    cases hflag : selFlag nodes id with
    | none => rw [hflag] at hr; cases hr
    | some b =>
      cases b with
      | true =>
        rw [hflag] at hr
        cases hr
        cases hd
      | false =>
        rw [hflag] at hr
        cases hr
        exact (hmark (clearSelected nodes) hclear).1
  · unfold selectVisual at hr
    cases hflag : selFlag nodes id with
    | none => rw [hflag] at hr; cases hr
    | some b =>
      cases b with
      | true =>
        rw [hflag] at hr
        cases hr
        exact hcnt
      | false =>
        rw [hflag] at hr
        cases hr
        exact (hmark (clearSelected nodes) hclear).2

/-- Witness for C9 on two concrete view nodes: selecting the selected
id is a no-op, selecting the other clears it and marks only the new
one. -/
theorem c9_selection_witness :
    selectVisual [(1, true), (2, false)] 1 = some ⟨[(1, true), (2, false)], false⟩
    ∧ (∀ q ∈ (SelectResult.mk [(1, false), (2, true)] true).viewNodes, q.1 ≠ 2 → q.2 = false)
    ∧ selCount (SelectResult.mk [(1, false), (2, true)] true).viewNodes ≤ 1 :=
  ⟨(c9_selection [(1, true), (2, false)] 1).1 (by rfl),
   (c9_selection [(1, true), (2, false)] 2).2.1 ⟨[(1, false), (2, true)], true⟩ (by rfl) rfl,
   (c9_selection [(1, true), (2, false)] 2).2.2 ⟨[(1, false), (2, true)], true⟩ (by rfl)
     (by decide)⟩

/-- Claim C10: the change event fired by `presentation.import(data)`
inside `App.import` is delivered to the view-reconciliation listener
only — the persistence listener is subscribed after the import fires —
and once the import trace completes both listeners are subscribed, so
later change events reach both. -/
theorem c10_import_fire_listeners (prevIds : List Int) (seed : Int) :
    importFireDelivery (importTrace prevIds seed) = [Listener.view]
    ∧ subsAfter (importTrace prevIds seed) = [Listener.view, Listener.persist] := by
  cases prevIds with
  | nil => exact ⟨rfl, rfl⟩
  | cons p ps => exact ⟨rfl, rfl⟩

end Pull
